import Mathlib

/-!
Shallow embedding of `src/Maxwell_Oziel.py`, a program that turns a list of
personal names into three-letter abbreviations: each name is normalized to
CamelCase, every character receives a positional score, all `(i, j)` index
pairs generate candidate abbreviations, abbreviations colliding across names
are removed, and the minimum-score candidates are selected per name.

Python strings are modelled as `List Char` (with `String` wrappers),
Python `dict`s as insertion-ordered association lists with unique keys,
Python `set`s as deduplicated lists, and the partial letter-value table as
`Char → Option Int` (a `none` lookup models the `KeyError` that Python
raises on a missing letter, making the whole computation return `none`).
-/

/-- The apostrophe character (codepoint 39). -/
def apostrophe : Char := Char.ofNat 39

/-- `re.sub("'+", "", name)`: removing every maximal run of apostrophes is
removing every apostrophe character. -/
def removeApostrophes (l : List Char) : List Char :=
  l.filter (fun c => c ≠ apostrophe)

/-- `re.sub("[^a-zA-Z]+", " ", name)`: replace each maximal run of
non-letter characters by a single space.  The flag records whether the
previous character was part of a non-letter run (so only the first
character of a run emits the space). -/
def subNonAlpha : List Char → Bool → List Char
  | [], _ => []
  | c :: cs, prevNonAlpha =>
    if c.isAlpha then c :: subNonAlpha cs false
    else if prevNonAlpha then subNonAlpha cs true
    else ' ' :: subNonAlpha cs true

/-- Python `str.title()` restricted to its behaviour on the letters-and-
spaces strings this pipeline feeds it: a letter that follows a letter is
lowercased, a letter that follows a non-letter (or starts the string) is
uppercased, non-letters are kept. The flag records whether the previous
character was a letter. -/
def titleCase : List Char → Bool → List Char
  | [], _ => []
  | c :: cs, prevAlpha =>
    (if c.isAlpha then (if prevAlpha then c.toLower else c.toUpper) else c)
      :: titleCase cs c.isAlpha

/-- `re.sub(" ", "", name)`: remove all spaces. -/
def removeSpaces (l : List Char) : List Char :=
  l.filter (fun c => c ≠ ' ')

/-- `reformat_name` on character lists: remove apostrophes, turn non-letter
runs into single spaces, title-case, remove the spaces. -/
def reformatList (l : List Char) : List Char :=
  removeSpaces (titleCase (subNonAlpha (removeApostrophes l) false) false)

/-- `reformat_name(name)`: clean the name and turn it into CamelCase. -/
def reformat_name (name : String) : String :=
  ⟨reformatList name.toList⟩

/-- `is_last_letter(name, i)`: `i == len(name) - 1 or name[i+1].isupper()`. -/
def is_last_letter (name : List Char) (i : Nat) : Bool :=
  i == name.length - 1 ||
    (match name.get? (i + 1) with
     | some c => c.isUpper
     | none => false)

/-- The value of the loop variable `char_word_pos` of
`calculate_scores_in_word` when the iteration for index `i` begins: it
starts at 0, resets to 0 immediately after a last-letter-of-word character
and otherwise increments. -/
def char_word_pos (name : List Char) : Nat → Nat
  | 0 => 0
  | i + 1 => if is_last_letter name i then 0 else char_word_pos name i + 1

/-- One iteration of the loop body of `calculate_scores_in_word`: from the
running `char_word_pos` and the scores written so far, process index `i`.
A failed table lookup (Python `KeyError`) collapses the scores to `none`;
the position update is `char_word_pos = 0 if is_last_letter(name, i) else
char_word_pos + 1`. -/
def scoreStep (lv : Char → Option Int) (name : List Char)
    (acc : Nat × Option (List Int)) (i : Nat) : Nat × Option (List Int) :=
  let pos := acc.1
  let sc : Option Int :=
    if pos = 0 then
      some 0
    else if is_last_letter name i then
      some (if (name.getD i ' ').toUpper = 'E' then 20 else 5)
    else
      (lv ((name.getD i ' ').toUpper)).map (fun v => v + ((min pos 3 : Nat) : Int))
  (if is_last_letter name i then 0 else pos + 1,
   match acc.2, sc with
   | some l, some s => some (l ++ [s])
   | _, _ => none)

/-- The loop of `calculate_scores_in_word` run over the first `k` indices. -/
def scoresUpTo (lv : Char → Option Int) (name : List Char) (k : Nat) :
    Nat × Option (List Int) :=
  (List.range k).foldl (scoreStep lv name) (0, some [])

/-- `calculate_scores_in_word(name_camel_case, letter_values)`: the score
list for every position of the (CamelCase) name, or `none` when a letter
needed from the table is missing. -/
def calculate_scores_in_word (lv : Char → Option Int) (name : List Char) :
    Option (List Int) :=
  (scoresUpTo lv name name.length).2

/-- The index pairs iterated by `create_abbreviations`:
`for i in range(1, len(name) - 1): for j in range(i + 1, len(name))`. -/
def abbrevPairs (n : Nat) : List (Nat × Nat) :=
  (List.range' 1 (n - 2)).flatMap
    (fun i => (List.range' (i + 1) (n - (i + 1))).map (fun j => (i, j)))

/-- `f"{name[0]}{name[i]}{name[j]}".upper()`. -/
def abbrevString (name : List Char) (i j : Nat) : String :=
  ⟨[(name.getD 0 ' ').toUpper, (name.getD i ' ').toUpper, (name.getD j ' ').toUpper]⟩

/-- `if abbreviation not in abbreviations or score < abbreviations[abbreviation]:
abbreviations[abbreviation] = score` on an insertion-ordered dict: a new key
is appended, an existing key keeps its place and takes the smaller score. -/
def dictInsertMin : List (String × Int) → String → Int → List (String × Int)
  | [], a, s => [(a, s)]
  | (b, t) :: rest, a, s =>
    if a = b then (if s < t then (b, s) :: rest else (b, t) :: rest)
    else (b, t) :: dictInsertMin rest a s

/-- `create_abbreviations(name, letter_values)`: normalize the name, score
it, and fold every `(i, j)` pair into the abbreviation dict; `none` when
scoring hit a missing table entry. -/
def create_abbreviations (lv : Char → Option Int) (name : String) :
    Option (List (String × Int)) :=
  let nm := (reformat_name name).toList
  match calculate_scores_in_word lv nm with
  | none => none
  | some scores =>
    some ((abbrevPairs nm.length).foldl
      (fun m ij =>
        dictInsertMin m (abbrevString nm ij.1 ij.2)
          (0 + scores.getD ij.1 0 + scores.getD ij.2 0))
      [])

/-- All abbreviation keys of the batch, in iteration order: the `instances`
dict of `find_duplicates` maps each abbreviation to its `List.count` here. -/
def allAbbrevKeys (all : List (String × List (String × Int))) : List String :=
  (all.map (fun p => p.2.map Prod.fst)).flatten

/-- The number of occurrences of abbreviation `a` counted by the
`instances` dict of `find_duplicates`. -/
def instancesCount (all : List (String × List (String × Int))) (a : String) : Nat :=
  (allAbbrevKeys all).count a

/-- `find_duplicates(all_abbreviations)`: the set of abbreviations whose
`instances` count exceeds 1, represented as a deduplicated list. -/
def find_duplicates (all : List (String × List (String × Int))) : List String :=
  (allAbbrevKeys all).dedup.filter (fun a => 1 < instancesCount all a)

/-- `remove_duplicates(all_abbreviations, duplicates)`: filter every name's
dict, keeping the entries whose key is not in `duplicates`. -/
def remove_duplicates (all : List (String × List (String × Int)))
    (duplicates : List String) : List (String × List (String × Int)) :=
  all.map (fun p => (p.1, p.2.filter (fun q => !(duplicates.contains q.1))))

/-- `find_and_remove_duplicates(all_abbreviations)`. -/
def find_and_remove_duplicates (all : List (String × List (String × Int))) :
    List (String × List (String × Int)) :=
  remove_duplicates all (find_duplicates all)

/-- The loop of `choose_best_abbreviations_inner`: `none` as running
minimum models the initial `float('inf')`, `best` is the accumulated
winners list. -/
def chooseBestAux : List (String × Int) → Option Int → List String → List String
  | [], _, best => best
  | (a, s) :: rest, none, _ => chooseBestAux rest (some s) [a]
  | (a, s) :: rest, some m, best =>
    if s < m then chooseBestAux rest (some s) [a]
    else if s = m then chooseBestAux rest (some m) (best ++ [a])
    else chooseBestAux rest (some m) best

/-- `choose_best_abbreviations_inner(abbreviations)`: all abbreviations
tied for the lowest score, in iteration order. -/
def choose_best_abbreviations_inner (abbrevs : List (String × Int)) : List String :=
  chooseBestAux abbrevs none []

/-- `choose_best_abbreviations(filtered)`. -/
def choose_best_abbreviations (filtered : List (String × List (String × Int))) :
    List (String × List String) :=
  filtered.map (fun p => (p.1, choose_best_abbreviations_inner p.2))

/-- The standard letter-value table A=1, B=2, ..., Z=26 used by the spec's
worked scenario. -/
def stdLetterValues (c : Char) : Option Int :=
  if 65 ≤ c.toNat ∧ c.toNat ≤ 90 then some ((c.toNat : Int) - 64) else none

/-- Modelled from the spec: the per-position scoring rule as §4.2 states
it, with the first-letter rule taking precedence (the spec's `Else if`),
used to compare the loop of `calculate_scores_in_word` against the spec's
wording. -/
def specLetterScore (f : Char → Int) (name : List Char) (i : Nat) : Int :=
  if char_word_pos name i = 0 then 0
  else if is_last_letter name i then
    (if (name.getD i ' ').toUpper = 'E' then 20 else 5)
  else f ((name.getD i ' ').toUpper) + ((min (char_word_pos name i) 3 : Nat) : Int)

/-- Capitalize the first character and lowercase the rest: what a second
pass of `reformat_name` does to the (all-letter) output of a first pass. -/
def capFirstLowerRest : List Char → List Char
  | [] => []
  | c :: cs => c.toUpper :: cs.map Char.toLower

/-- `capFirstLowerRest` on strings. -/
def capFirstName (s : String) : String :=
  ⟨capFirstLowerRest s.toList⟩

/-- The running value of `min_score` in `choose_best_abbreviations_inner`
after a list of (abbreviation, score) pairs has been processed, starting
from `m`. -/
def runningMin (l : List (String × Int)) (m : Int) : Int :=
  l.foldl (fun acc p => if p.2 < acc then p.2 else acc) m

/-! ### Lemmas about the scoring loop -/

theorem scoresUpTo_succ (lv : Char → Option Int) (name : List Char) (k : Nat) :
    scoresUpTo lv name (k + 1) = scoreStep lv name (scoresUpTo lv name k) k := by
  simp [scoresUpTo, List.range_succ]

theorem scoresUpTo_fst (lv : Char → Option Int) (name : List Char) :
    ∀ k, (scoresUpTo lv name k).1 = char_word_pos name k
  | 0 => rfl
  | k + 1 => by
    rw [scoresUpTo_succ, char_word_pos]
    simp [scoreStep, scoresUpTo_fst lv name k]

theorem scoresUpTo_total (f : Char → Int) (name : List Char) :
    ∀ k, (scoresUpTo (fun c => some (f c)) name k).2 =
      some ((List.range k).map (specLetterScore f name))
  | 0 => rfl
  | k + 1 => by
    rw [scoresUpTo_succ, List.range_succ, List.map_append]
    simp only [scoreStep, scoresUpTo_fst, scoresUpTo_total f name k]
    by_cases h0 : char_word_pos name k = 0 <;>
      by_cases hl : is_last_letter name k = true <;>
      simp [specLetterScore, h0, hl]

theorem scoresUpTo_isSome (lv : Char → Option Int) (name : List Char)
    (h : ∀ i, i < name.length → char_word_pos name i ≠ 0 →
      is_last_letter name i = false → (lv ((name.getD i ' ').toUpper)).isSome) :
    ∀ k, k ≤ name.length → ((scoresUpTo lv name k).2).isSome
  | 0, _ => rfl
  | k + 1, hk => by
    rw [scoresUpTo_succ]
    have ih := scoresUpTo_isSome lv name h k (Nat.le_of_succ_le hk)
    obtain ⟨l, hl⟩ := Option.isSome_iff_exists.mp ih
    rw [scoreStep]
    simp only [hl]
    by_cases h0 : char_word_pos name k = 0
    · simp [scoresUpTo_fst, h0]
    · by_cases hlast : is_last_letter name k = true
      · simp [scoresUpTo_fst, h0, hlast]
      · have := h k (Nat.lt_of_succ_le hk) h0 (Bool.not_eq_true _ ▸ hlast)
        obtain ⟨v, hv⟩ := Option.isSome_iff_exists.mp this
        simp only [List.getD, List.get?_eq_getElem?] at hv
        simp [scoresUpTo_fst, h0, hlast, hv]

/-- C3: for a complete letter-value table, the score list computed by
`calculate_scores_in_word` assigns every position `i` the spec's rule:
0 at word position 0; else 20 (for 'E') or 5 at the last letter of a word
(final character, or followed by an uppercase character); else the table
value of the uppercased character plus `min(char_word_pos, 3)`, where
`char_word_pos` resets to 0 immediately after a last-letter character and
increments otherwise. -/
theorem calculate_scores_follow_spec_rule (f : Char → Int) (name : List Char)
    (i : Nat) (hi : i < name.length) :
    ∃ l, calculate_scores_in_word (fun c => some (f c)) name = some l ∧
      l.getD i 0 = specLetterScore f name i := by
  refine ⟨(List.range name.length).map (specLetterScore f name), ?_, ?_⟩
  · rw [calculate_scores_in_word, scoresUpTo_total]
  · rw [List.getD_eq_getElem _ _ (by simpa using hi)]
    simp

/-- C3 witness: position 2 of `"Obrien"` (an interior letter) under the
table A=1..Z=26. -/
theorem calculate_scores_follow_spec_rule_witness :
    2 < ("Obrien".toList).length ∧
      ∃ l, calculate_scores_in_word
          (fun c => some ((fun d => ((d.toNat : Int) - 64)) c)) "Obrien".toList =
          some l ∧
        l.getD 2 0 = specLetterScore (fun d => ((d.toNat : Int) - 64)) "Obrien".toList 2 :=
  ⟨by decide,
   calculate_scores_follow_spec_rule (fun d => ((d.toNat : Int) - 64))
     "Obrien".toList 2 (by decide)⟩

/-- C9: the letter-value table is consulted only for interior letters: if
every position that is neither at word position 0 nor the last letter of
its word has its uppercased character in the table, scoring completes
without error, whatever the rest of the table lacks. -/
theorem table_consulted_only_for_interior (lv : Char → Option Int)
    (name : List Char)
    (h : ∀ i, i < name.length → char_word_pos name i ≠ 0 →
      is_last_letter name i = false → (lv ((name.getD i ' ').toUpper)).isSome) :
    (calculate_scores_in_word lv name).isSome :=
  scoresUpTo_isSome lv name h name.length (Nat.le_refl _)

/-- C9 witness: `"McDo"`, whose words all have length 2, scores without
error against the empty table. -/
theorem table_consulted_only_for_interior_witness :
    (∀ i, i < (['M', 'c', 'D', 'o'] : List Char).length →
        char_word_pos ['M', 'c', 'D', 'o'] i ≠ 0 →
        is_last_letter ['M', 'c', 'D', 'o'] i = false →
        ((fun _ => (none : Option Int)) (((['M', 'c', 'D', 'o'] : List Char).getD i ' ').toUpper)).isSome) ∧
      (calculate_scores_in_word (fun _ => none) ['M', 'c', 'D', 'o']).isSome :=
  ⟨by decide, table_consulted_only_for_interior (fun _ => none) ['M', 'c', 'D', 'o'] (by decide)⟩

/-- C4 counterexample: the spec's worked scenario is wrong on the code.
`"o'brien"` normalizes to `"Obrien"` — the apostrophe is removed before
title-casing, so the `b` is not capitalized and the result is not
`"OBrien"` — and with the table A=1..Z=26 the per-position scores are
`[0, 3, 20, 12, 8, 5]`: the score at position 1 is 3, so the score list
does not begin `[0, 5, ...]`. -/
theorem spec_scenario_obrien_counterexample :
    reformat_name "o'brien" = "Obrien" ∧
      reformat_name "o'brien" ≠ "OBrien" ∧
      calculate_scores_in_word stdLetterValues (reformat_name "o'brien").toList =
        some [0, 3, 20, 12, 8, 5] ∧
      ([0, 3, 20, 12, 8, 5] : List Int).getD 1 0 ≠ 5 := by
  decide

/-- C4 amended: `"o'brien"` normalizes to `"Obrien"` (a single CamelCase
word: the apostrophe is removed before title-casing) and, with the table
A=1..Z=26, its per-position scores are `[0, 3, 20, 12, 8, 5]`: they begin
`[0, 3, ...]`, where position 1 (`b`) is an interior letter scoring
`letter_value[B] + min(1, 3) = 2 + 1 = 3`, and the final `n` scores 5 as a
non-'E' last letter. -/
theorem spec_scenario_obrien_amended :
    reformat_name "o'brien" = "Obrien" ∧
      calculate_scores_in_word stdLetterValues (reformat_name "o'brien").toList =
        some [0, 3, 20, 12, 8, 5] ∧
      stdLetterValues 'B' = some 2 ∧
      ([0, 3, 20, 12, 8, 5] : List Int).getD 1 0 = 2 + ((min 1 3 : Nat) : Int) ∧
      ([0, 3, 20, 12, 8, 5] : List Int).getD 5 0 = 5 := by
  decide

/-! ### Character-level facts used by the normalizer lemmas -/

theorem toNat_ofNat_of_valid {n : Nat} (h : n.isValidChar) : (Char.ofNat n).toNat = n := by
  rw [Char.ofNat, dif_pos h]
  rfl

theorem char_isUpper_toNat {c : Char} : c.isUpper = true ↔ 65 ≤ c.toNat ∧ c.toNat ≤ 90 := by
  simp [Char.isUpper, UInt32.le_def, BitVec.le_def, Char.toNat, UInt32.toNat]

theorem char_isLower_toNat {c : Char} : c.isLower = true ↔ 97 ≤ c.toNat ∧ c.toNat ≤ 122 := by
  simp [Char.isLower, UInt32.le_def, BitVec.le_def, Char.toNat, UInt32.toNat]

theorem char_isAlpha_toNat {c : Char} :
    c.isAlpha = true ↔ (65 ≤ c.toNat ∧ c.toNat ≤ 90) ∨ (97 ≤ c.toNat ∧ c.toNat ≤ 122) := by
  simp [Char.isAlpha, char_isUpper_toNat, char_isLower_toNat]

theorem char_toUpper_toNat (c : Char) :
    (c.toUpper).toNat = if 97 ≤ c.toNat ∧ c.toNat ≤ 122 then c.toNat - 32 else c.toNat := by
  rw [Char.toUpper]
  by_cases h : 97 ≤ c.toNat ∧ c.toNat ≤ 122
  · rw [if_pos ?_, if_pos h]
    · exact toNat_ofNat_of_valid (Or.inl (by omega))
    · exact ⟨h.1, h.2⟩
  · rw [if_neg ?_, if_neg h]
    intro hc
    exact h ⟨hc.1, hc.2⟩

theorem char_toLower_toNat (c : Char) :
    (c.toLower).toNat = if 65 ≤ c.toNat ∧ c.toNat ≤ 90 then c.toNat + 32 else c.toNat := by
  rw [Char.toLower]
  by_cases h : 65 ≤ c.toNat ∧ c.toNat ≤ 90
  · rw [if_pos ?_, if_pos h]
    · exact toNat_ofNat_of_valid (Or.inl (by omega))
    · exact ⟨h.1, h.2⟩
  · rw [if_neg ?_, if_neg h]
    intro hc
    exact h ⟨hc.1, hc.2⟩

theorem char_isAlpha_toUpper {c : Char} (h : c.isAlpha = true) : (c.toUpper).isAlpha = true := by
  rw [char_isAlpha_toNat] at h ⊢
  rw [char_toUpper_toNat]
  rcases h with h | h
  · rw [if_neg (by omega)]
    exact Or.inl h
  · rw [if_pos (by omega)]
    exact Or.inl (by omega)

theorem char_isAlpha_toLower {c : Char} (h : c.isAlpha = true) : (c.toLower).isAlpha = true := by
  rw [char_isAlpha_toNat] at h ⊢
  rw [char_toLower_toNat]
  rcases h with h | h
  · rw [if_pos (by omega)]
    exact Or.inr (by omega)
  · rw [if_neg (by omega)]
    exact Or.inr h

theorem char_ne_of_toNat_ne {c d : Char} (h : c.toNat ≠ d.toNat) : c ≠ d := by
  intro he
  exact h (by rw [he])

theorem char_alpha_ne_space {c : Char} (h : c.isAlpha = true) : c ≠ ' ' := by
  rw [char_isAlpha_toNat] at h
  apply char_ne_of_toNat_ne
  have : (' ' : Char).toNat = 32 := by decide
  omega

theorem char_alpha_ne_apostrophe {c : Char} (h : c.isAlpha = true) : c ≠ apostrophe := by
  rw [char_isAlpha_toNat] at h
  apply char_ne_of_toNat_ne
  have : apostrophe.toNat = 39 := by decide
  omega

/-! ### Structure of the normalizer's output -/

theorem subNonAlpha_mem : ∀ (l : List Char) (b : Bool) (c : Char),
    c ∈ subNonAlpha l b → c.isAlpha = true ∨ c = ' '
  | [], _, _, h => absurd h (List.not_mem_nil _)
  | d :: cs, b, c, h => by
    rw [subNonAlpha] at h
    by_cases hd : d.isAlpha
    · rw [if_pos hd] at h
      rcases List.mem_cons.mp h with h | h
      · exact Or.inl (h ▸ hd)
      · exact subNonAlpha_mem cs false c h
    · rw [if_neg hd] at h
      by_cases hb : b
      · rw [if_pos hb] at h
        exact subNonAlpha_mem cs true c h
      · rw [if_neg hb] at h
        rcases List.mem_cons.mp h with h | h
        · exact Or.inr h
        · exact subNonAlpha_mem cs true c h

theorem titleCase_mem : ∀ (l : List Char) (b : Bool) (c : Char),
    (∀ d ∈ l, d.isAlpha = true ∨ d = ' ') → c ∈ titleCase l b →
    c.isAlpha = true ∨ c = ' '
  | [], _, _, _, h => absurd h (List.not_mem_nil _)
  | d :: cs, b, c, hall, h => by
    rw [titleCase] at h
    rcases List.mem_cons.mp h with h | h
    · rcases hall d (List.mem_cons_self _ _) with hd | hd
      · rw [if_pos hd] at h
        by_cases hb : b
        · rw [if_pos hb] at h
          exact Or.inl (h ▸ char_isAlpha_toLower hd)
        · rw [if_neg hb] at h
          exact Or.inl (h ▸ char_isAlpha_toUpper hd)
      · rw [if_neg (by rw [hd]; decide)] at h
        exact Or.inr (h.trans hd)
    · exact titleCase_mem cs d.isAlpha c (fun e he => hall e (List.mem_cons_of_mem _ he)) h

theorem reformatList_alpha (l : List Char) :
    ∀ c ∈ reformatList l, c.isAlpha = true := by
  intro c hc
  rw [reformatList, removeSpaces] at hc
  have h1 := List.of_mem_filter hc
  have h2 := List.mem_of_mem_filter hc
  have h3 := titleCase_mem _ false c (fun d hd => subNonAlpha_mem _ _ _ hd) h2
  rcases h3 with h3 | h3
  · exact h3
  · exact absurd h3 (of_decide_eq_true h1)

theorem removeApostrophes_of_alpha (l : List Char)
    (h : ∀ c ∈ l, c.isAlpha = true) : removeApostrophes l = l := by
  rw [removeApostrophes, List.filter_eq_self]
  intro c hc
  exact decide_eq_true (char_alpha_ne_apostrophe (h c hc))

theorem subNonAlpha_of_alpha : ∀ (l : List Char) (b : Bool),
    (∀ c ∈ l, c.isAlpha = true) → subNonAlpha l b = l
  | [], _, _ => rfl
  | c :: cs, b, h => by
    rw [subNonAlpha, if_pos (h c (List.mem_cons_self _ _)),
      subNonAlpha_of_alpha cs false (fun d hd => h d (List.mem_cons_of_mem _ hd))]

theorem titleCase_true_of_alpha : ∀ (l : List Char),
    (∀ c ∈ l, c.isAlpha = true) → titleCase l true = l.map Char.toLower
  | [], _ => rfl
  | c :: cs, h => by
    have hc := h c (List.mem_cons_self _ _)
    rw [titleCase, List.map_cons, if_pos hc, if_pos rfl, hc,
      titleCase_true_of_alpha cs (fun d hd => h d (List.mem_cons_of_mem _ hd))]

theorem titleCase_false_of_alpha : ∀ (l : List Char),
    (∀ c ∈ l, c.isAlpha = true) → titleCase l false = capFirstLowerRest l
  | [], _ => rfl
  | c :: cs, h => by
    have hc := h c (List.mem_cons_self _ _)
    rw [titleCase, capFirstLowerRest, if_pos hc, if_neg (by decide), hc,
      titleCase_true_of_alpha cs (fun d hd => h d (List.mem_cons_of_mem _ hd))]

theorem capFirstLowerRest_alpha (l : List Char)
    (h : ∀ c ∈ l, c.isAlpha = true) : ∀ c ∈ capFirstLowerRest l, c.isAlpha = true := by
  intro c hc
  cases l with
  | nil => exact absurd hc (List.not_mem_nil _)
  | cons d cs =>
    rw [capFirstLowerRest] at hc
    rcases List.mem_cons.mp hc with hc | hc
    · exact hc ▸ char_isAlpha_toUpper (h d (List.mem_cons_self _ _))
    · obtain ⟨e, he, rfl⟩ := List.mem_map.mp hc
      exact char_isAlpha_toLower (h e (List.mem_cons_of_mem _ he))

theorem removeSpaces_of_alpha (l : List Char)
    (h : ∀ c ∈ l, c.isAlpha = true) : removeSpaces l = l := by
  rw [removeSpaces, List.filter_eq_self]
  intro c hc
  exact decide_eq_true (char_alpha_ne_space (h c hc))

theorem reformatList_reformatList (l : List Char) :
    reformatList (reformatList l) = capFirstLowerRest (reformatList l) := by
  have ha := reformatList_alpha l
  rw [reformatList, removeApostrophes_of_alpha _ ha, subNonAlpha_of_alpha _ _ ha,
    titleCase_false_of_alpha _ ha,
    removeSpaces_of_alpha _ (capFirstLowerRest_alpha _ ha)]

/-- C5 counterexample: normalization is not idempotent. `"mc donald"`
normalizes to `"McDonald"`, but normalizing `"McDonald"` gives
`"Mcdonald"` — the second pass sees a single all-letter word and
lowercases everything after its first letter. -/
theorem reformat_name_not_idempotent :
    reformat_name (reformat_name "mc donald") ≠ reformat_name "mc donald" := by
  decide

/-- C5 amended: applying the normalizer twice is not the identity on its
first result in general; it equals capitalizing the first letter and
lowercasing every other letter of the once-normalized name (so it agrees
with one application exactly on names whose normalized form has no
uppercase letter after the first position, e.g. single-word names). -/
theorem reformat_name_twice (s : String) :
    reformat_name (reformat_name s) = capFirstName (reformat_name s) := by
  rw [reformat_name, reformat_name, capFirstName]
  exact congrArg String.mk (reformatList_reformatList s.toList)

/-! ### The abbreviation generator -/

theorem abbrevPairs_eq_nil {n : Nat} (h : n ≤ 2) : abbrevPairs n = [] := by
  rw [abbrevPairs, Nat.sub_eq_zero_of_le h]
  rfl

/-- C7: a raw name whose normalized form has length at most 2 (the empty
string and letterless inputs included) yields an empty abbreviation dict
with no table lookup failing — for any table, even the empty one — and the
winners list of an empty dict is empty. -/
theorem short_names_degrade_gracefully (lv : Char → Option Int) (name : String)
    (h : (reformat_name name).toList.length ≤ 2) :
    create_abbreviations lv name = some [] ∧
      choose_best_abbreviations_inner [] = [] := by
  refine ⟨?_, rfl⟩
  have hno : ∀ i, i < (reformat_name name).toList.length →
      char_word_pos (reformat_name name).toList i ≠ 0 →
      is_last_letter (reformat_name name).toList i = false →
      (lv (((reformat_name name).toList.getD i ' ').toUpper)).isSome := by
    intro i hi h0 hlast
    match i with
    | 0 => exact absurd rfl h0
    | 1 =>
      have hlen : (reformat_name name).toList.length = 2 := by omega
      rw [is_last_letter, hlen] at hlast
      simp at hlast
    | i + 2 => omega
  have hs := scoresUpTo_isSome lv (reformat_name name).toList hno
    (reformat_name name).toList.length (Nat.le_refl _)
  obtain ⟨l, hl⟩ := Option.isSome_iff_exists.mp hs
  rw [create_abbreviations]
  rw [show calculate_scores_in_word lv (reformat_name name).toList = some l from hl]
  rw [abbrevPairs_eq_nil h]
  rfl

/-- C7 witness: `"o!b"` normalizes to `"OB"` (length 2) and degrades
gracefully even against the empty table. -/
theorem short_names_degrade_gracefully_witness :
    (reformat_name "o!b").toList.length ≤ 2 ∧
      (create_abbreviations (fun _ => none) "o!b" = some [] ∧
        choose_best_abbreviations_inner [] = []) :=
  ⟨by decide, short_names_degrade_gracefully (fun _ => none) "o!b" (by decide)⟩

theorem dictInsertMin_length_le : ∀ (m : List (String × Int)) (a : String) (s : Int),
    (dictInsertMin m a s).length ≤ m.length + 1
  | [], _, _ => by simp [dictInsertMin]
  | (b, t) :: rest, a, s => by
    rw [dictInsertMin]
    by_cases h : a = b
    · rw [if_pos h]
      by_cases h2 : s < t <;> simp [h2]
    · rw [if_neg h]
      have := dictInsertMin_length_le rest a s
      simp only [List.length_cons]
      omega

theorem dictInsertMin_of_not_mem : ∀ (m : List (String × Int)) (a : String) (s : Int),
    a ∉ m.map Prod.fst → dictInsertMin m a s = m ++ [(a, s)]
  | [], _, _, _ => rfl
  | (b, t) :: rest, a, s, h => by
    have hab : a ≠ b := by
      intro he
      exact h (he ▸ List.mem_cons_self _ _)
    rw [dictInsertMin, if_neg hab, List.cons_append,
      dictInsertMin_of_not_mem rest a s (fun hm => h (List.mem_cons_of_mem _ hm))]

theorem foldl_dictInsertMin_length_le {α : Type} (key : α → String) (val : α → Int) :
    ∀ (xs : List α) (init : List (String × Int)),
      (xs.foldl (fun m x => dictInsertMin m (key x) (val x)) init).length ≤
        init.length + xs.length
  | [], init => by simp
  | x :: xs, init => by
    rw [List.foldl_cons]
    have h1 := foldl_dictInsertMin_length_le key val xs (dictInsertMin init (key x) (val x))
    have h2 := dictInsertMin_length_le init (key x) (val x)
    simp only [List.length_cons]
    omega

theorem foldl_dictInsertMin_length_eq {α : Type} (key : α → String) (val : α → Int) :
    ∀ (xs : List α) (init : List (String × Int)),
      (xs.map key).Nodup → (∀ x ∈ xs, key x ∉ init.map Prod.fst) →
      (xs.foldl (fun m x => dictInsertMin m (key x) (val x)) init).length =
        init.length + xs.length
  | [], init, _, _ => by simp
  | x :: xs, init, hnd, hdisj => by
    rw [List.foldl_cons,
      dictInsertMin_of_not_mem init (key x) (val x) (hdisj x (List.mem_cons_self _ _))]
    rw [List.map_cons, List.nodup_cons] at hnd
    have hd2 : ∀ y ∈ xs, key y ∉ (init ++ [(key x, val x)]).map Prod.fst := by
      intro y hy
      rw [List.map_append, List.mem_append]
      rintro (hIn | hIn)
      · exact hdisj y (List.mem_cons_of_mem _ hy) hIn
      · simp only [List.map_cons, List.map_nil, List.mem_singleton] at hIn
        exact hnd.1 (hIn ▸ List.mem_map_of_mem key hy)
    rw [foldl_dictInsertMin_length_eq key val xs (init ++ [(key x, val x)]) hnd.2 hd2]
    simp only [List.length_append, List.length_cons, List.length_nil]
    omega

theorem range'_map_sub_sum : ∀ (b a : Nat),
    (((List.range' a b).map (fun i => a + b - i)).sum) * 2 = b * (b + 1)
  | 0, _ => rfl
  | b + 1, a => by
    rw [List.range'_succ, List.map_cons, List.sum_cons]
    have hfun : (fun i => a + (b + 1) - i) = (fun i => (a + 1) + b - i) := by
      funext i
      omega
    rw [hfun]
    have ih := range'_map_sub_sum b (a + 1)
    have hhead : a + (b + 1) - a = b + 1 := by omega
    have hexp : (b + 1) * (b + 1 + 1) = b * (b + 1) + 2 * (b + 1) := by ring
    omega

theorem abbrevPairs_length (n : Nat) :
    (abbrevPairs n).length = Nat.choose (n - 1) 2 := by
  match n, Nat.lt_or_ge n 3 with
  | 0, _ => rfl
  | 1, _ => rfl
  | 2, _ => rfl
  | n + 3, _ =>
    rw [abbrevPairs, List.length_flatMap]
    simp only [Function.comp_def]
    have hmap : (List.range' 1 (n + 3 - 2)).map
        (fun i => (((List.range' (i + 1) (n + 3 - (i + 1))).map (fun j => (i, j))).length)) =
        (List.range' 1 (n + 1)).map (fun i => 1 + (n + 1) - i) := by
      apply List.map_congr_left
      intro i hi
      rw [List.length_map, List.length_range']
      have := List.mem_range'_1.mp hi
      omega
    rw [hmap]
    have hsum := range'_map_sub_sum (n + 1) 1
    rw [Nat.choose_two_right]
    have hexp : (n + 3 - 1) * (n + 3 - 1 - 1) = (n + 1) * ((n + 1) + 1) := by
      have : n + 3 - 1 = n + 2 := by omega
      rw [this]
      have : n + 2 - 1 = n + 1 := by omega
      rw [this]
      ring
    omega

/-- C6 counterexample: the claimed bound `C(len-2, 2)` is not the number
of valid `(i, j)` pairs. For `"abcde"` (normalized `"Abcde"`, length 5,
all pairs yielding distinct strings) the abbreviation set has 6 entries,
but `C(5-2, 2) = 3`. -/
theorem abbreviation_count_bound_counterexample :
    (create_abbreviations stdLetterValues "abcde").map List.length = some 6 ∧
      ((abbrevPairs (reformat_name "abcde").toList.length).map
          (fun ij => abbrevString (reformat_name "abcde").toList ij.1 ij.2)).Nodup ∧
      Nat.choose ((reformat_name "abcde").toList.length - 2) 2 = 3 ∧
      ¬(6 ≤ 3) := by
  decide

/-- C6 amended: the number of valid `(i, j)` pairs is `C(len-1, 2)`
(indices `1 ≤ i < j ≤ len-1`), and for every name the abbreviation set
has at most that many entries, with equality when all pairs yield
distinct abbreviation strings. -/
theorem abbreviation_count_bound (lv : Char → Option Int) (name : String)
    (m : List (String × Int)) (h : create_abbreviations lv name = some m) :
    m.length ≤ Nat.choose ((reformat_name name).toList.length - 1) 2 ∧
      (((abbrevPairs (reformat_name name).toList.length).map
          (fun ij => abbrevString (reformat_name name).toList ij.1 ij.2)).Nodup →
        m.length = Nat.choose ((reformat_name name).toList.length - 1) 2) := by
  rw [create_abbreviations] at h
  cases hc : calculate_scores_in_word lv (reformat_name name).toList with
  | none =>
    rw [hc] at h
    exact absurd h (by simp)
  | some scores =>
    rw [hc] at h
    simp only [Option.some.injEq] at h
    subst h
    constructor
    · have hle := foldl_dictInsertMin_length_le
        (fun ij : Nat × Nat => abbrevString (reformat_name name).toList ij.1 ij.2)
        (fun ij : Nat × Nat => 0 + scores.getD ij.1 0 + scores.getD ij.2 0)
        (abbrevPairs (reformat_name name).toList.length) []
      rw [abbrevPairs_length] at hle
      simpa using hle
    · intro hnd
      have heq := foldl_dictInsertMin_length_eq
        (fun ij : Nat × Nat => abbrevString (reformat_name name).toList ij.1 ij.2)
        (fun ij : Nat × Nat => 0 + scores.getD ij.1 0 + scores.getD ij.2 0)
        (abbrevPairs (reformat_name name).toList.length) [] hnd (by simp)
      rw [abbrevPairs_length] at heq
      simpa using heq

/-- C6 amended witness: `"abcd"` (normalized length 4, all pair strings
distinct) reaches the bound `C(3, 2) = 3`. -/
theorem abbreviation_count_bound_witness :
    create_abbreviations stdLetterValues "abcd" =
        some [("ABC", 8), ("ABD", 8), ("ACD", 10)] ∧
      ((abbrevPairs (reformat_name "abcd").toList.length).map
          (fun ij => abbrevString (reformat_name "abcd").toList ij.1 ij.2)).Nodup ∧
      ([("ABC", 8), ("ABD", 8), ("ACD", 10)] : List (String × Int)).length ≤
          Nat.choose ((reformat_name "abcd").toList.length - 1) 2 ∧
      ([("ABC", 8), ("ABD", 8), ("ACD", 10)] : List (String × Int)).length =
          Nat.choose ((reformat_name "abcd").toList.length - 1) 2 :=
  ⟨by decide, by decide,
   (abbreviation_count_bound stdLetterValues "abcd" _ (by decide)).1,
   (abbreviation_count_bound stdLetterValues "abcd" _ (by decide)).2 (by decide)⟩

/-! ### The best-candidate selector -/

theorem chooseBestAux_ne_nil : ∀ (l : List (String × Int)) (m : Int) (b : List String),
    b ≠ [] → chooseBestAux l (some m) b ≠ []
  | [], _, _, hb => hb
  | (a, s) :: rest, m, b, hb => by
    rw [chooseBestAux]
    by_cases h1 : s < m
    · rw [if_pos h1]
      exact chooseBestAux_ne_nil rest s [a] (by simp)
    · rw [if_neg h1]
      by_cases h2 : s = m
      · rw [if_pos h2]
        exact chooseBestAux_ne_nil rest m (b ++ [a]) (by simp)
      · rw [if_neg h2]
        exact chooseBestAux_ne_nil rest m b hb

theorem runningMin_cons (a : String) (s : Int) (rest : List (String × Int)) (m : Int) :
    runningMin ((a, s) :: rest) m = runningMin rest (if s < m then s else m) := by
  rw [runningMin, runningMin, List.foldl_cons]

theorem runningMin_le : ∀ (l : List (String × Int)) (m : Int),
    runningMin l m ≤ m ∧ ∀ p ∈ l, runningMin l m ≤ p.2
  | [], m => ⟨le_refl m, by simp⟩
  | (a, s) :: rest, m => by
    rw [runningMin_cons]
    by_cases hs : s < m
    · rw [if_pos hs]
      obtain ⟨h1, h2⟩ := runningMin_le rest s
      refine ⟨le_trans h1 (le_of_lt hs), ?_⟩
      intro p hp
      rcases List.mem_cons.mp hp with hp | hp
      · subst hp
        exact h1
      · exact h2 p hp
    · rw [if_neg hs]
      obtain ⟨h1, h2⟩ := runningMin_le rest m
      refine ⟨h1, ?_⟩
      intro p hp
      rcases List.mem_cons.mp hp with hp | hp
      · subst hp
        exact le_trans h1 (le_of_not_lt hs)
      · exact h2 p hp

theorem chooseBestAux_sound : ∀ (l : List (String × Int)) (m : Int) (b : List String)
    (x : String), x ∈ chooseBestAux l (some m) b →
    (x ∈ b ∧ runningMin l m = m) ∨ (x, runningMin l m) ∈ l
  | [], m, b, x, hx => Or.inl ⟨hx, rfl⟩
  | (a, s) :: rest, m, b, x, hx => by
    rw [chooseBestAux] at hx
    rw [runningMin_cons]
    by_cases h1 : s < m
    · rw [if_pos h1] at hx ⊢
      rcases chooseBestAux_sound rest s [a] x hx with ⟨hxb, hrm⟩ | hmem
      · rcases List.mem_singleton.mp hxb with rfl
        rw [hrm]
        exact Or.inr (List.mem_cons_self _ _)
      · exact Or.inr (List.mem_cons_of_mem _ hmem)
    · rw [if_neg h1] at hx ⊢
      by_cases h2 : s = m
      · rw [if_pos h2] at hx
        rcases chooseBestAux_sound rest m (b ++ [a]) x hx with ⟨hxb, hrm⟩ | hmem
        · rcases List.mem_append.mp hxb with hxb | hxa
          · exact Or.inl ⟨hxb, hrm⟩
          · rcases List.mem_singleton.mp hxa with rfl
            rw [hrm, ← h2]
            exact Or.inr (List.mem_cons_self _ _)
        · exact Or.inr (List.mem_cons_of_mem _ hmem)
      · rw [if_neg h2] at hx
        rcases chooseBestAux_sound rest m b x hx with ⟨hxb, hrm⟩ | hmem
        · exact Or.inl ⟨hxb, hrm⟩
        · exact Or.inr (List.mem_cons_of_mem _ hmem)

/-- C2: every abbreviation returned by `choose_best_abbreviations_inner`
carries the minimum score present in its input set (never a greater one),
and the returned list is empty exactly when the input set is empty. -/
theorem best_candidates_minimal (l : List (String × Int)) :
    (choose_best_abbreviations_inner l = [] ↔ l = []) ∧
      ∀ x ∈ choose_best_abbreviations_inner l, ∃ s, (x, s) ∈ l ∧ ∀ p ∈ l, s ≤ p.2 := by
  match l with
  | [] => exact ⟨by simp [choose_best_abbreviations_inner, chooseBestAux], by
      simp [choose_best_abbreviations_inner, chooseBestAux]⟩
  | (a, s) :: rest =>
    rw [choose_best_abbreviations_inner, chooseBestAux]
    constructor
    · constructor
      · intro he
        exact absurd he (chooseBestAux_ne_nil rest s [a] (by simp))
      · intro he
        exact absurd he (by simp)
    · intro x hx
      refine ⟨runningMin rest s, ?_, ?_⟩
      · rcases chooseBestAux_sound rest s [a] x hx with ⟨hxb, hrm⟩ | hmem
        · rcases List.mem_singleton.mp hxb with rfl
          rw [hrm]
          exact List.mem_cons_self _ _
        · exact List.mem_cons_of_mem _ hmem
      · intro p hp
        obtain ⟨h1, h2⟩ := runningMin_le rest s
        rcases List.mem_cons.mp hp with hp | hp
        · subst hp
          exact h1
        · exact h2 p hp

/-- C2 witness: a concrete three-entry set whose minimum score 3 is shared
by two abbreviations. -/
theorem best_candidates_minimal_witness :
    "ABD" ∈ choose_best_abbreviations_inner [("ABC", 5), ("ABD", 3), ("ACD", 3)] ∧
      ∃ s, ("ABD", s) ∈ ([("ABC", 5), ("ABD", 3), ("ACD", 3)] : List (String × Int)) ∧
        ∀ p ∈ ([("ABC", 5), ("ABD", 3), ("ACD", 3)] : List (String × Int)), s ≤ p.2 :=
  ⟨by decide,
   (best_candidates_minimal [("ABC", 5), ("ABD", 3), ("ACD", 3)]).2 "ABD" (by decide)⟩

/-! ### Cross-name deduplication -/

theorem instancesCount_eq_countP :
    ∀ (all : List (String × List (String × Int))),
      (∀ p ∈ all, (p.2.map Prod.fst).Nodup) → ∀ (a : String),
      instancesCount all a = all.countP (fun p => decide (a ∈ p.2.map Prod.fst))
  | [], _, a => rfl
  | p :: rest, hnd, a => by
    have hrest := instancesCount_eq_countP rest
      (fun q hq => hnd q (List.mem_cons_of_mem _ hq)) a
    rw [instancesCount, allAbbrevKeys] at hrest ⊢
    rw [List.map_cons, List.flatten_cons, List.count_append, List.countP_cons, hrest]
    by_cases hmem : a ∈ p.2.map Prod.fst
    · rw [List.count_eq_one_of_mem (hnd p (List.mem_cons_self _ _)) hmem,
        if_pos (decide_eq_true hmem)]
      omega
    · rw [List.count_eq_zero_of_not_mem hmem, if_neg (by simpa using hmem)]
      omega

theorem mem_find_duplicates (all : List (String × List (String × Int))) (a : String) :
    a ∈ find_duplicates all ↔ 1 < instancesCount all a := by
  rw [find_duplicates]
  constructor
  · intro h
    exact of_decide_eq_true (List.mem_filter.mp h).2
  · intro h
    apply List.mem_filter.mpr
    refine ⟨List.mem_dedup.mpr ?_, decide_eq_true h⟩
    exact List.count_pos_iff.mp (lt_of_le_of_lt (Nat.zero_le 1) h)

theorem mem_keys_filter (l : List (String × Int)) (dup : List String) (a : String) :
    a ∈ (l.filter (fun q => !(dup.contains q.1))).map Prod.fst ↔
      a ∈ l.map Prod.fst ∧ a ∉ dup := by
  constructor
  · intro h
    obtain ⟨q, hq, rfl⟩ := List.mem_map.mp h
    have h1 := List.of_mem_filter hq
    have h2 := List.mem_of_mem_filter hq
    refine ⟨List.mem_map_of_mem _ h2, ?_⟩
    intro hd
    rw [Bool.not_eq_true'] at h1
    exact absurd (List.elem_eq_true_of_mem hd) (by simpa [List.contains] using h1)
  · rintro ⟨h1, h2⟩
    obtain ⟨q, hq, rfl⟩ := List.mem_map.mp h1
    apply List.mem_map_of_mem
    apply List.mem_filter.mpr
    refine ⟨hq, ?_⟩
    simpa [List.contains, List.elem_iff] using h2

theorem find_and_remove_getD (all : List (String × List (String × Int)))
    (k : Nat) (hk : k < all.length) :
    (find_and_remove_duplicates all).getD k ("", []) =
      ((all.getD k ("", [])).1,
       (all.getD k ("", [])).2.filter
         (fun q => !((find_duplicates all).contains q.1))) := by
  rw [find_and_remove_duplicates, remove_duplicates,
    List.getD_eq_getElem _ _ (by simpa using hk), List.getD_eq_getElem _ _ hk,
    List.getElem_map]

/-- C1: an abbreviation string survives for the k-th name exactly when it
was in that name's set and occurs in the sets of fewer than two of the
batch's names, each name contributing at most once per string (its
AbbreviationSet is a dict, so its key list has no duplicates — the `Nodup`
hypothesis); strings occurring in only one name's set are kept. -/
theorem cross_name_dedup_exact (all : List (String × List (String × Int)))
    (hnd : ∀ p ∈ all, (p.2.map Prod.fst).Nodup) (k : Nat) (hk : k < all.length)
    (a : String) :
    a ∈ ((find_and_remove_duplicates all).getD k ("", [])).2.map Prod.fst ↔
      (a ∈ (all.getD k ("", [])).2.map Prod.fst ∧
        all.countP (fun p => decide (a ∈ p.2.map Prod.fst)) ≤ 1) := by
  rw [find_and_remove_getD all k hk, mem_keys_filter, mem_find_duplicates,
    instancesCount_eq_countP all hnd a]
  constructor
  · rintro ⟨h1, h2⟩
    exact ⟨h1, by omega⟩
  · rintro ⟨h1, h2⟩
    exact ⟨h1, by omega⟩

/-- C1 witness: `"ABC"` occurs in both names' sets and is removed from
name 0; the iff holds with both sides false. -/
theorem cross_name_dedup_exact_witness :
    (∀ p ∈ ([("Ann", [("ANN", 3), ("ABC", 4)]), ("Abb", [("ABC", 5)])] :
        List (String × List (String × Int))), (p.2.map Prod.fst).Nodup) ∧
      0 < ([("Ann", [("ANN", 3), ("ABC", 4)]), ("Abb", [("ABC", 5)])] :
        List (String × List (String × Int))).length ∧
      ("ABC" ∈ ((find_and_remove_duplicates
            [("Ann", [("ANN", 3), ("ABC", 4)]), ("Abb", [("ABC", 5)])]).getD 0
            ("", [])).2.map Prod.fst ↔
        ("ABC" ∈ (([("Ann", [("ANN", 3), ("ABC", 4)]), ("Abb", [("ABC", 5)])] :
              List (String × List (String × Int))).getD 0 ("", [])).2.map Prod.fst ∧
          ([("Ann", [("ANN", 3), ("ABC", 4)]), ("Abb", [("ABC", 5)])] :
              List (String × List (String × Int))).countP
              (fun p => decide ("ABC" ∈ p.2.map Prod.fst)) ≤ 1)) :=
  ⟨by decide, by decide,
   cross_name_dedup_exact [("Ann", [("ANN", 3), ("ABC", 4)]), ("Abb", [("ABC", 5)])]
     (by decide) 0 (by decide) "ABC"⟩

/-- C8: deduplication is batch-order-independent: a permutation of the
batch leaves every abbreviation's occurrence count unchanged and permutes
the filtered records themselves, so which abbreviations survive for each
(content-identified) name does not depend on batch order. -/
theorem dedup_batch_order_independent
    (all1 all2 : List (String × List (String × Int))) (h : all1.Perm all2) :
    (∀ a, instancesCount all1 a = instancesCount all2 a) ∧
      (find_and_remove_duplicates all1).Perm (find_and_remove_duplicates all2) := by
  have hkeys : (allAbbrevKeys all1).Perm (allAbbrevKeys all2) := by
    rw [allAbbrevKeys, allAbbrevKeys]
    exact (h.map (fun p => p.2.map Prod.fst)).flatten
  have hcount : ∀ a, instancesCount all1 a = instancesCount all2 a :=
    fun a => hkeys.count_eq a
  refine ⟨hcount, ?_⟩
  have hdup : ∀ x, (find_duplicates all1).contains x = (find_duplicates all2).contains x := by
    intro x
    have h1 : x ∈ find_duplicates all1 ↔ x ∈ find_duplicates all2 := by
      rw [mem_find_duplicates, mem_find_duplicates, hcount x]
    apply Bool.eq_iff_iff.mpr
    simpa [List.contains, List.elem_iff] using h1
  have hfun : (fun p : String × List (String × Int) =>
        (p.1, p.2.filter (fun q => !((find_duplicates all1).contains q.1)))) =
      (fun p : String × List (String × Int) =>
        (p.1, p.2.filter (fun q => !((find_duplicates all2).contains q.1)))) := by
    funext p
    simp only [hdup]
  rw [find_and_remove_duplicates, find_and_remove_duplicates,
    remove_duplicates, remove_duplicates, hfun]
  exact h.map _

/-- C8 witness: a two-record batch and its reversal. -/
theorem dedup_batch_order_independent_witness :
    ([("A", [("ABC", 1)]), ("B", [("BCD", 2)])] :
        List (String × List (String × Int))).Perm
      [("B", [("BCD", 2)]), ("A", [("ABC", 1)])] ∧
      ((∀ a, instancesCount [("A", [("ABC", 1)]), ("B", [("BCD", 2)])] a =
          instancesCount [("B", [("BCD", 2)]), ("A", [("ABC", 1)])] a) ∧
        (find_and_remove_duplicates [("A", [("ABC", 1)]), ("B", [("BCD", 2)])]).Perm
          (find_and_remove_duplicates [("B", [("BCD", 2)]), ("A", [("ABC", 1)])])) :=
  ⟨by decide,
   dedup_batch_order_independent [("A", [("ABC", 1)]), ("B", [("BCD", 2)])]
     [("B", [("BCD", 2)]), ("A", [("ABC", 1)])] (by decide)⟩

/-- C10: filtering is a pure removal: the batch keeps its length and name
order, each display name is unchanged, and each surviving (abbreviation,
score) entry is kept verbatim and in order — the filtered dict is a
sublist of the original. -/
theorem dedup_pure_removal (all : List (String × List (String × Int)))
    (k : Nat) (hk : k < all.length) :
    (find_and_remove_duplicates all).length = all.length ∧
      ((find_and_remove_duplicates all).getD k ("", [])).1 =
        (all.getD k ("", [])).1 ∧
      ((find_and_remove_duplicates all).getD k ("", [])).2.Sublist
        (all.getD k ("", [])).2 := by
  refine ⟨?_, ?_, ?_⟩
  · rw [find_and_remove_duplicates, remove_duplicates, List.length_map]
  · rw [find_and_remove_getD all k hk]
  · rw [find_and_remove_getD all k hk]
    exact List.filter_sublist _

/-- C10 witness: the removal of `"ABC"` from record 0 keeps the record's
name, and the surviving entries form a sublist. -/
theorem dedup_pure_removal_witness :
    0 < ([("Ann", [("ANN", 3), ("ABC", 4)]), ("Abb", [("ABC", 5), ("ABB", 9)])] :
        List (String × List (String × Int))).length ∧
      (find_and_remove_duplicates
          [("Ann", [("ANN", 3), ("ABC", 4)]), ("Abb", [("ABC", 5), ("ABB", 9)])]).length =
        ([("Ann", [("ANN", 3), ("ABC", 4)]), ("Abb", [("ABC", 5), ("ABB", 9)])] :
          List (String × List (String × Int))).length ∧
      ((find_and_remove_duplicates
          [("Ann", [("ANN", 3), ("ABC", 4)]), ("Abb", [("ABC", 5), ("ABB", 9)])]).getD 0
          ("", [])).1 =
        (([("Ann", [("ANN", 3), ("ABC", 4)]), ("Abb", [("ABC", 5), ("ABB", 9)])] :
            List (String × List (String × Int))).getD 0 ("", [])).1 ∧
      ((find_and_remove_duplicates
          [("Ann", [("ANN", 3), ("ABC", 4)]), ("Abb", [("ABC", 5), ("ABB", 9)])]).getD 0
          ("", [])).2.Sublist
        (([("Ann", [("ANN", 3), ("ABC", 4)]), ("Abb", [("ABC", 5), ("ABB", 9)])] :
            List (String × List (String × Int))).getD 0 ("", [])).2 :=
  ⟨by decide,
   dedup_pure_removal [("Ann", [("ANN", 3), ("ABC", 4)]), ("Abb", [("ABC", 5), ("ABB", 9)])]
     0 (by decide)⟩
